import Mathlib

/-!
Verification of `src/scripts/general_MDP/main.py` (Benders decomposition of
discounted MDPs).  The Python source is shallowly embedded over `ℚ`: the
NumPy random draws become explicit parameters or an explicit stream, the
Gurobi master model becomes a record of parameters, variables, objective
coefficients and a cut pool, and each instance family's transition matrix,
reward matrix and initial distribution become Lean functions mirroring the
loops of `define_MDP`.
-/

/-! ## Master LP model (`define_MP`, main.py lines 516-548) -/

inductive VType where
  | continuous
  | integer
deriving DecidableEq

/-- A Gurobi variable as created by `model.addVar`: lower bound, upper bound
(`none` meaning `GRB.INFINITY` / no finite bound), type and name. -/
structure GrbVar where
  lb : Option ℚ
  ub : Option ℚ
  vtype : VType
  vname : String
deriving DecidableEq

/-- The master model: solver parameters set via `setParam`, the variable
list, the objective coefficients (per state index), the optimisation sense
and the pool of Bellman cuts, each cut identified by its (state, action)
pair. -/
structure MPModel where
  params : List (String × ℚ)
  vars : List GrbVar
  objCoeff : List ℚ
  objMinimize : Bool
  constrs : List (ℕ × ℕ)
deriving DecidableEq

/-- Embedding of `define_MP` (main.py lines 516-548): parameters
`OutputFlag = False`, `IntFeasTol = 1e-9`, `NumericFocus = 3`,
`DualReductions = 0`; one continuous variable `theta_s` per state with
`lb = -1e10` and `ub = GRB.INFINITY`; objective
`minimize sum_s initial_distr[s] * theta_s`; no constraints added. -/
def define_MP (states : List ℕ) (initial_distr : List ℚ) : MPModel :=
  { params := [("OutputFlag", 0), ("IntFeasTol", 1 / 1000000000),
               ("NumericFocus", 3), ("DualReductions", 0)],
    vars := (List.range states.length).map (fun s =>
      { lb := some (-10000000000), ub := none,
        vtype := VType.continuous, vname := "theta_" ++ Nat.repr s }),
    objCoeff := (List.range states.length).map (fun s => initial_distr.getD s 0),
    objMinimize := true,
    constrs := [] }

/-- Value of the master objective at an assignment of the theta variables. -/
def MPModel.objEval (m : MPModel) (θ : ℕ → ℚ) : ℚ :=
  ∑ s in Finset.range m.objCoeff.length, m.objCoeff.getD s 0 * θ s

lemma map_range_getD (n s : ℕ) (f : ℕ → ℚ) (hs : s < n) :
    ((List.range n).map f).getD s 0 = f s := by
  rw [List.getD_eq_getElem?_getD]
  simp [List.getElem?_range, hs]

/-- C3 (claim as stated): in the master built by `define_MP`, every theta
variable would be free — unbounded below and with no finite upper bound.
This fails: the source sets `lb=-1e10`, a finite lower bound. -/
theorem define_MP_theta_not_free :
    ¬ (∀ v ∈ (define_MP [0] [1]).vars, v.lb = none ∧ v.ub = none) := by
  decide

/-- C3 (amended): `define_MP` creates exactly one continuous variable per
state; each has the finite lower bound `-1e10` and no finite upper bound
(`ub = GRB.INFINITY`). -/
theorem define_MP_theta_vars (states : List ℕ) (initial_distr : List ℚ) :
    (define_MP states initial_distr).vars.length = states.length ∧
    ∀ v ∈ (define_MP states initial_distr).vars,
      v.vtype = VType.continuous ∧ v.lb = some (-10000000000) ∧ v.ub = none := by
  constructor
  · simp [define_MP]
  · intro v hv
    simp only [define_MP, List.mem_map, List.mem_range] at hv
    obtain ⟨s, -, rfl⟩ := hv
    exact ⟨rfl, rfl, rfl⟩

/-- C4: the master objective built by `define_MP` is
`minimize sum_s initial_distr[s] * theta_s`, summed over all state
indices, with minimization sense. -/
theorem define_MP_objective (states : List ℕ) (initial_distr : List ℚ) (θ : ℕ → ℚ) :
    (define_MP states initial_distr).objMinimize = true ∧
    (define_MP states initial_distr).objEval θ =
      ∑ s in Finset.range states.length, initial_distr.getD s 0 * θ s := by
  refine ⟨rfl, ?_⟩
  unfold MPModel.objEval
  have hlen : (define_MP states initial_distr).objCoeff.length = states.length := by
    simp [define_MP]
  rw [hlen]
  refine Finset.sum_congr rfl ?_
  intro s hs
  rw [Finset.mem_range] at hs
  show ((List.range states.length).map (fun s => initial_distr.getD s 0)).getD s 0 * θ s = _
  rw [map_range_getD _ _ _ hs]

/-- C5: the master returned by `define_MP` contains no linear constraints
at construction time: the cut pool is empty. -/
theorem define_MP_no_constraints (states : List ℕ) (initial_distr : List ℚ) :
    (define_MP states initial_distr).constrs = [] := rfl

/-- C6: every master built by `define_MP` has the solver parameters
`IntFeasTol = 1e-9` and `NumericFocus = 3` set. -/
theorem define_MP_numeric_params (states : List ℕ) (initial_distr : List ℚ) :
    ("IntFeasTol", (1 : ℚ) / 1000000000) ∈ (define_MP states initial_distr).params ∧
    ("NumericFocus", (3 : ℚ)) ∈ (define_MP states initial_distr).params := by
  exact ⟨by simp [define_MP], by simp [define_MP]⟩

/-! ## Generic helpers: sums over `Finset.range` and NumPy row normalisation -/

lemma sum_range_ite_one (n v : ℕ) (X : ℚ) (hv : v < n) :
    ∑ j in Finset.range n, (if j = v then X else 0) = X := by
  rw [Finset.sum_ite_eq' (Finset.range n) v (fun _ => X)]
  simp [hv]

lemma sum_range_ite_two (n v₁ v₂ : ℕ) (X Y : ℚ) (h₁ : v₁ < n) (h₂ : v₂ < n)
    (hne : v₁ ≠ v₂) :
    ∑ j in Finset.range n, (if j = v₁ then X else if j = v₂ then Y else 0) = X + Y := by
  have hsplit : ∀ j, (if j = v₁ then X else if j = v₂ then Y else 0)
      = (if j = v₁ then X else 0) + (if j = v₂ then Y else 0) := by
    intro j
    by_cases hj1 : j = v₁
    · subst hj1; simp [hne]
    · by_cases hj2 : j = v₂ <;> simp [hj1, hj2, Ne.symm hne]
  rw [Finset.sum_congr rfl fun j _ => hsplit j, Finset.sum_add_distrib,
    sum_range_ite_one n v₁ X h₁, sum_range_ite_one n v₂ Y h₂]

lemma sum_range_ite_three (n v₁ v₂ v₃ : ℕ) (X Y Z : ℚ) (h₁ : v₁ < n) (h₂ : v₂ < n)
    (h₃ : v₃ < n) (h₁₂ : v₁ ≠ v₂) (h₁₃ : v₁ ≠ v₃) (h₂₃ : v₂ ≠ v₃) :
    ∑ j in Finset.range n,
      (if j = v₁ then X else if j = v₂ then Y else if j = v₃ then Z else 0)
      = X + Y + Z := by
  have hsplit : ∀ j,
      (if j = v₁ then X else if j = v₂ then Y else if j = v₃ then Z else 0)
      = (if j = v₁ then X else 0) + (if j = v₂ then Y else if j = v₃ then Z else 0) := by
    intro j
    by_cases hj1 : j = v₁
    · subst hj1; simp [h₁₂, h₁₃]
    · simp [hj1]
  rw [Finset.sum_congr rfl fun j _ => hsplit j, Finset.sum_add_distrib,
    sum_range_ite_one n v₁ X h₁, sum_range_ite_two n v₂ v₃ Y Z h₂ h₃ h₂₃, add_assoc]

/-- Row normalisation as performed by `x / x.sum(axis, keepdims=True)` in
the source: entry `k` of a raw vector divided by the total of its first
`n` entries. -/
def rowNormalize (n : ℕ) (raw : ℕ → ℚ) (k : ℕ) : ℚ :=
  raw k / ∑ j in Finset.range n, raw j

lemma rowNormalize_nonneg (n : ℕ) (raw : ℕ → ℚ) (h : ∀ j, 0 ≤ raw j) (k : ℕ) :
    0 ≤ rowNormalize n raw k :=
  div_nonneg (h k) (Finset.sum_nonneg fun j _ => h j)

lemma rowNormalize_sum (n : ℕ) (raw : ℕ → ℚ)
    (h : (∑ j in Finset.range n, raw j) ≠ 0) :
    ∑ k in Finset.range n, rowNormalize n raw k = 1 := by
  unfold rowNormalize
  rw [← Finset.sum_div, div_self h]

/-! ## Initial distributions of `define_MDP` -/

/-- Initial distribution of the random, queue, bandit and transmission
families (main.py lines 52-57, 119-124, 185-190, 488-493): a vector of
`np.random.rand` draws, normalised. -/
def rand_initial_distr (n : ℕ) (raw : ℕ → ℚ) : ℕ → ℚ := rowNormalize n raw

/-- Initial distribution of the inventory family (main.py lines 269-275):
a normalised random vector over the `n_inv` genuine inventory levels, with
a literal `0` prepended for the overflow state (index 0). -/
def inventory_initial_distr (N : ℕ) (raw : ℕ → ℚ) (k : ℕ) : ℚ :=
  if k = 0 then 0 else rowNormalize N raw (k - 1)

/-- Initial distribution of the replace family (main.py line 371): the
uniform vector `[1/n_states] * n_states`. -/
def replace_initial_distr (n : ℕ) : ℕ → ℚ := fun _ => 1 / (n : ℚ)

/-- C7: for every instance family, the initial distribution built by
`define_MDP` is a probability distribution: entries are nonnegative and
sum to 1 (for the normalised families, provided the raw draws are
nonnegative with nonzero total — `np.random.rand` draws are in `[0,1)`
and their total is positive almost surely). -/
theorem define_MDP_initial_distr_prob :
    (∀ n raw, (∀ j, 0 ≤ raw j) → (∑ j in Finset.range n, raw j) ≠ 0 →
      (∀ k, 0 ≤ rand_initial_distr n raw k) ∧
      ∑ k in Finset.range n, rand_initial_distr n raw k = 1) ∧
    (∀ N raw, (∀ j, 0 ≤ raw j) → (∑ j in Finset.range N, raw j) ≠ 0 →
      (∀ k, 0 ≤ inventory_initial_distr N raw k) ∧
      ∑ k in Finset.range (N + 1), inventory_initial_distr N raw k = 1) ∧
    (∀ n : ℕ, 1 ≤ n →
      (∀ k, 0 ≤ replace_initial_distr n k) ∧
      ∑ k in Finset.range n, replace_initial_distr n k = 1) := by
  refine ⟨?_, ?_, ?_⟩
  · intro n raw h0 hs
    exact ⟨rowNormalize_nonneg n raw h0, rowNormalize_sum n raw hs⟩
  · intro N raw h0 hs
    constructor
    · intro k
      unfold inventory_initial_distr
      by_cases hk : k = 0
      · simp [hk]
      · simpa [hk] using rowNormalize_nonneg N raw h0 (k - 1)
    · rw [Finset.sum_range_succ']
      have h1 : (∑ k in Finset.range N, inventory_initial_distr N raw (k + 1))
          = ∑ k in Finset.range N, rowNormalize N raw k :=
        Finset.sum_congr rfl fun k _ => by simp [inventory_initial_distr]
      rw [h1, rowNormalize_sum N raw hs]
      simp [inventory_initial_distr]
  · intro n hn
    have hne : (n : ℚ) ≠ 0 := Nat.cast_ne_zero.mpr (by omega)
    constructor
    · intro k
      unfold replace_initial_distr
      positivity
    · unfold replace_initial_distr
      rw [Finset.sum_const, Finset.card_range, nsmul_eq_mul, mul_one_div, div_self hne]

/-- C7 witness: the probability-distribution property instantiated on
concrete draws for each family shape. -/
theorem define_MDP_initial_distr_prob_witness :
    (∑ k in Finset.range 2, rand_initial_distr 2 (fun _ => 1) k = 1) ∧
    (∑ k in Finset.range 2, inventory_initial_distr 1 (fun _ => 1) k = 1) ∧
    (∑ k in Finset.range 3, replace_initial_distr 3 k = 1) :=
  ⟨(define_MDP_initial_distr_prob.1 2 (fun _ => 1)
      (fun _ => by norm_num) (by norm_num [Finset.sum_range_succ])).2,
   (define_MDP_initial_distr_prob.2.1 1 (fun _ => 1)
      (fun _ => by norm_num) (by norm_num [Finset.sum_range_succ])).2,
   (define_MDP_initial_distr_prob.2.2 3 (by norm_num)).2⟩

/-! ## Transition matrices of `define_MDP`: random and queue families -/

lemma rowNormalize_le_one (n : ℕ) (raw : ℕ → ℚ) (k : ℕ) (h0 : ∀ j, 0 ≤ raw j)
    (hs : 0 < ∑ j in Finset.range n, raw j) (hk : k < n) :
    rowNormalize n raw k ≤ 1 := by
  unfold rowNormalize
  rw [div_le_one hs]
  exact Finset.single_le_sum (fun j _ => h0 j) (Finset.mem_range.mpr hk)

/-- Transition matrix of the random family (main.py lines 30-36): a matrix
of `np.random.rand` draws per action, each row normalised. -/
def random_trans (n : ℕ) (raw : ℕ → ℕ → ℕ → ℚ) (a i j : ℕ) : ℚ :=
  rowNormalize n (raw a i) j

/-- Random family rows are nonnegative and sum to one (raw draws are
nonnegative with nonzero row total). -/
lemma random_trans_row (n : ℕ) (raw : ℕ → ℕ → ℕ → ℚ) (a i : ℕ)
    (h0 : ∀ j, 0 ≤ raw a i j) (hs : (∑ j in Finset.range n, raw a i j) ≠ 0) :
    (∀ j, 0 ≤ random_trans n raw a i j) ∧
    ∑ j in Finset.range n, random_trans n raw a i j = 1 :=
  ⟨fun j => rowNormalize_nonneg n (raw a i) h0 j, rowNormalize_sum n (raw a i) hs⟩

/-- Service-rate grid `q = np.linspace(0, 1 - p, n_action)` of the queue
family (main.py line 72). -/
def queue_q (m : ℕ) (p : ℚ) (a : ℕ) : ℚ :=
  if m ≤ 1 then 0 else (a : ℚ) * (1 - p) / ((m : ℚ) - 1)

/-- Transition matrix of the queue family (main.py lines 78-100): birth-
death dynamics with arrival probability `p` and chosen service rate
`q[a]`. -/
def queue_trans (n m : ℕ) (p : ℚ) (a i j : ℕ) : ℚ :=
  if i = 0 then
    (if j = 0 then 1 - p else if j = 1 then p else 0)
  else if i = n - 1 then
    (if j = i - 1 then queue_q m p a else if j = i then 1 - queue_q m p a else 0)
  else
    (if j = i - 1 then (1 - p) * queue_q m p a
     else if j = i then (1 - p) * (1 - queue_q m p a) + p * queue_q m p a
     else if j = i + 1 then p * (1 - queue_q m p a)
     else 0)

lemma queue_q_nonneg (m : ℕ) (p : ℚ) (a : ℕ) (hp1 : p ≤ 1) :
    0 ≤ queue_q m p a := by
  unfold queue_q
  by_cases hm : m ≤ 1
  · simp [hm]
  · rw [if_neg hm]
    have hm2 : (2 : ℚ) ≤ (m : ℚ) := by exact_mod_cast by omega
    apply div_nonneg
    · exact mul_nonneg (Nat.cast_nonneg a) (by linarith)
    · linarith

lemma queue_q_le (m : ℕ) (p : ℚ) (a : ℕ) (ha : a < m) (hp1 : p ≤ 1) :
    queue_q m p a ≤ 1 - p := by
  unfold queue_q
  by_cases hm : m ≤ 1
  · rw [if_pos hm]; linarith
  · rw [if_neg hm]
    have hm2 : (2 : ℚ) ≤ (m : ℚ) := by exact_mod_cast by omega
    have ha' : (a : ℚ) ≤ (m : ℚ) - 1 := by
      have : (a : ℚ) + 1 ≤ (m : ℚ) := by exact_mod_cast ha
      linarith
    rw [div_le_iff (by linarith)]
    calc (a : ℚ) * (1 - p) ≤ ((m : ℚ) - 1) * (1 - p) :=
          mul_le_mul_of_nonneg_right ha' (by linarith)
      _ = (1 - p) * ((m : ℚ) - 1) := by ring

/-- Queue family rows are nonnegative and sum to one (for at least two
states, an in-range action and arrival probability `p ∈ [0, 1]`). -/
lemma queue_trans_row (n m : ℕ) (p : ℚ) (a i : ℕ) (hn : 2 ≤ n) (ha : a < m)
    (hp : 0 ≤ p) (hp1 : p ≤ 1) (hi : i < n) :
    (∀ j, 0 ≤ queue_trans n m p a i j) ∧
    ∑ j in Finset.range n, queue_trans n m p a i j = 1 := by
  have hq0 := queue_q_nonneg m p a hp1
  have hq1 := queue_q_le m p a ha hp1
  constructor
  · intro j
    unfold queue_trans
    have haux1 : 0 ≤ (1 - p) * queue_q m p a := mul_nonneg (by linarith) hq0
    have haux2 : 0 ≤ (1 - p) * (1 - queue_q m p a) :=
      mul_nonneg (by linarith) (by linarith)
    have haux3 : 0 ≤ p * queue_q m p a := mul_nonneg hp hq0
    have haux4 : 0 ≤ p * (1 - queue_q m p a) := mul_nonneg hp (by linarith)
    split_ifs <;> linarith
  · by_cases h0 : i = 0
    · subst h0
      have hfun : ∀ j, queue_trans n m p a 0 j
          = (if j = 0 then 1 - p else if j = 1 then p else 0) := by
        intro j; unfold queue_trans; rw [if_pos rfl]
      rw [Finset.sum_congr rfl fun j _ => hfun j,
        sum_range_ite_two n 0 1 (1 - p) p (by omega) (by omega) (by omega)]
      ring
    · by_cases hlast : i = n - 1
      · have hfun : ∀ j, queue_trans n m p a i j
            = (if j = i - 1 then queue_q m p a
               else if j = i then 1 - queue_q m p a else 0) := by
          intro j; unfold queue_trans; rw [if_neg h0, if_pos hlast]
        rw [Finset.sum_congr rfl fun j _ => hfun j,
          sum_range_ite_two n (i - 1) i (queue_q m p a) (1 - queue_q m p a)
            (by omega) hi (by omega)]
        ring
      · have hfun : ∀ j, queue_trans n m p a i j
            = (if j = i - 1 then (1 - p) * queue_q m p a
               else if j = i then
                 (1 - p) * (1 - queue_q m p a) + p * queue_q m p a
               else if j = i + 1 then p * (1 - queue_q m p a)
               else 0) := by
          intro j; unfold queue_trans; rw [if_neg h0, if_neg hlast]
        rw [Finset.sum_congr rfl fun j _ => hfun j,
          sum_range_ite_three n (i - 1) i (i + 1)
            ((1 - p) * queue_q m p a)
            ((1 - p) * (1 - queue_q m p a) + p * queue_q m p a)
            (p * (1 - queue_q m p a))
            (by omega) hi (by omega) (by omega) (by omega) (by omega)]
        ring

/-! ## Bandit family -/

/-- Transition matrix of the bandit family (main.py lines 149-168): a state
assigns each arm a position (the source enumerates these tuples through
`itertools.product`); playing arm `a` moves that arm by the normalised
random matrix `trans_arm` drawn for `a` and leaves every other arm
unchanged. -/
def bandit_trans (A S : ℕ) (armRaw : ℕ → ℕ → ℕ → ℚ) (a : Fin A)
    (σ τ : Fin A → Fin S) : ℚ :=
  if ∀ b : Fin A, b ≠ a → σ b = τ b then
    rowNormalize S (armRaw a (σ a)) (τ a)
  else 0

lemma bandit_sum_aux (A S : ℕ) (g : ℕ → ℚ) (a : Fin A) (σ : Fin A → Fin S) :
    ∑ τ : Fin A → Fin S,
      (if ∀ b : Fin A, b ≠ a → σ b = τ b then g (τ a) else 0)
      = ∑ k : Fin S, g k := by
  rw [Finset.sum_ite, Finset.sum_const_zero, add_zero]
  refine Finset.sum_nbij' (fun τ => τ a) (fun k => Function.update σ a k)
    (fun τ _ => Finset.mem_univ _) ?_ ?_ ?_ ?_
  · intro k _
    refine Finset.mem_filter.mpr ⟨Finset.mem_univ _, ?_⟩
    intro b hb
    exact (Function.update_noteq hb k σ).symm
  · intro τ hτ
    have hc := (Finset.mem_filter.mp hτ).2
    funext b
    by_cases hb : b = a
    · subst hb; exact Function.update_same b (τ b) σ
    · show Function.update σ a (τ a) b = τ b
      rw [Function.update_noteq hb, hc b hb]
  · intro k _
    exact Function.update_same a k σ
  · intro τ _
    rfl

/-- Bandit family rows are nonnegative and sum to one (the played arm's
raw transition row is nonnegative with nonzero total). -/
lemma bandit_trans_row (A S : ℕ) (armRaw : ℕ → ℕ → ℕ → ℚ) (a : Fin A)
    (σ : Fin A → Fin S)
    (h0 : ∀ k, 0 ≤ armRaw a (σ a) k)
    (hs : (∑ k in Finset.range S, armRaw a (σ a) k) ≠ 0) :
    (∀ τ, 0 ≤ bandit_trans A S armRaw a σ τ) ∧
    ∑ τ : Fin A → Fin S, bandit_trans A S armRaw a σ τ = 1 := by
  constructor
  · intro τ
    unfold bandit_trans
    split_ifs
    · exact rowNormalize_nonneg S (armRaw a (σ a)) h0 (τ a)
    · exact le_refl 0
  · unfold bandit_trans
    rw [bandit_sum_aux A S (rowNormalize S (armRaw a (σ a))) a σ,
      Fin.sum_univ_eq_sum_range]
    exact rowNormalize_sum S (armRaw a (σ a)) hs

/-! ## Inventory family -/

lemma sum_range_ite_interval (n l u : ℕ) (g : ℕ → ℚ) (hu : u ≤ n) :
    ∑ j in Finset.range n, (if l ≤ j ∧ j < u then g j else 0)
      = ∑ j in Finset.Ico l u, g j := by
  have hsub : Finset.Ico l u ⊆ Finset.range n := by
    intro x hx
    exact Finset.mem_range.mpr (lt_of_lt_of_le (Finset.mem_Ico.mp hx).2 hu)
  have hzero : ∀ x ∈ Finset.range n, x ∉ Finset.Ico l u →
      (if l ≤ x ∧ x < u then g x else 0) = 0 := by
    intro x _ hx
    rw [if_neg]
    intro hc
    exact hx (Finset.mem_Ico.mpr hc)
  rw [← Finset.sum_subset hsub hzero]
  exact Finset.sum_congr rfl fun j hj => if_pos (Finset.mem_Ico.mp hj)

/-- Normalised demand pmf `p` of the inventory family (main.py lines
208-210): truncated Poisson probabilities, renormalised. -/
def inventory_p (N : ℕ) (praw : ℕ → ℚ) : ℕ → ℚ := rowNormalize N praw

/-- Tail sums `q[i] = np.sum(p[i:])` of the inventory family (main.py
lines 211-213). -/
def inventory_q (N : ℕ) (praw : ℕ → ℚ) (i : ℕ) : ℚ :=
  ∑ j in Finset.Ico i N, inventory_p N praw j

/-- Transition matrix of the inventory family (main.py lines 219-241).
State index `i` encodes inventory level `inv_list[i] = i - 1`; index 0 is
the overflow level `-1`.  Ordering `a` from a level that overflows the
capacity `n_inv = N` (or from the overflow state itself) leads to state 0
with probability 1; otherwise the next level is driven by the demand pmf,
level 0 receiving the tail mass `q[inv + a]`. -/
def inventory_trans (N : ℕ) (praw : ℕ → ℚ) (a i j : ℕ) : ℚ :=
  if N + 1 ≤ i + a ∨ i = 0 then (if j = 0 then 1 else 0)
  else if j = 0 then 0
  else if i + a < j then 0
  else if 2 ≤ j then inventory_p N praw (i + a - j)
  else inventory_q N praw (i - 1 + a)

/-- Inventory family rows are nonnegative and sum to one (raw demand pmf
nonnegative with nonzero total, `N + 1` states, `N` actions). -/
lemma inventory_trans_row (N : ℕ) (praw : ℕ → ℚ) (a i : ℕ)
    (h0 : ∀ j, 0 ≤ praw j) (hs : (∑ j in Finset.range N, praw j) ≠ 0)
    (hi : i < N + 1) (ha : a < N) :
    (∀ j, 0 ≤ inventory_trans N praw a i j) ∧
    ∑ j in Finset.range (N + 1), inventory_trans N praw a i j = 1 := by
  have hp0 : ∀ k, 0 ≤ inventory_p N praw k := rowNormalize_nonneg N praw h0
  have hq0 : ∀ k, 0 ≤ inventory_q N praw k := fun k =>
    Finset.sum_nonneg fun j _ => hp0 j
  constructor
  · intro j
    unfold inventory_trans
    split_ifs
    · exact zero_le_one
    · exact le_refl 0
    · exact le_refl 0
    · exact le_refl 0
    · exact hp0 _
    · exact hq0 _
  · by_cases hover : N + 1 ≤ i + a ∨ i = 0
    · have hfun : ∀ j, inventory_trans N praw a i j = (if j = 0 then 1 else 0) := by
        intro j; unfold inventory_trans; rw [if_pos hover]
      rw [Finset.sum_congr rfl fun j _ => hfun j,
        sum_range_ite_one (N + 1) 0 1 (by omega)]
    · push_neg at hover
      obtain ⟨hT, hi0⟩ := hover
      have hfun : ∀ j, inventory_trans N praw a i j
          = (if j = 1 then inventory_q N praw (i - 1 + a) else 0)
            + (if 2 ≤ j ∧ j < i + a + 1 then inventory_p N praw (i + a - j)
               else 0) := by
        intro j
        unfold inventory_trans
        rw [if_neg (by omega)]
        split_ifs <;> first | (exfalso; omega) | ring1
      rw [Finset.sum_congr rfl fun j _ => hfun j, Finset.sum_add_distrib,
        sum_range_ite_one (N + 1) 1 _ (by omega),
        sum_range_ite_interval (N + 1) 2 (i + a + 1) _ (by omega),
        Finset.sum_Ico_eq_sum_range]
      have h2 : ∑ t in Finset.range (i + a + 1 - 2),
            inventory_p N praw (i + a - (2 + t))
          = ∑ t in Finset.range (i + a - 1), inventory_p N praw t := by
        have hn : i + a + 1 - 2 = i + a - 1 := by omega
        rw [hn]
        have hre : ∀ t, inventory_p N praw (i + a - (2 + t))
            = inventory_p N praw ((i + a - 1) - 1 - t) := by
          intro t; congr 1; omega
        rw [Finset.sum_congr rfl fun t _ => hre t,
          Finset.sum_range_reflect (fun t => inventory_p N praw t) (i + a - 1)]
      rw [h2]
      have hidx : i - 1 + a = i + a - 1 := by omega
      rw [hidx]
      unfold inventory_q
      rw [add_comm, Finset.range_eq_Ico,
        Finset.sum_Ico_consecutive (inventory_p N praw) (by omega) (by omega),
        ← Finset.range_eq_Ico]
      exact rowNormalize_sum N praw hs

/-- Reward matrix of the inventory family (main.py lines 242-257): the
overflow state row stays zero; an order that overflows the capacity is
penalised by `-100000`; otherwise expected sales revenue minus ordering
cost `O_a` and holding cost. -/
def inventory_reward (N : ℕ) (praw : ℕ → ℚ) (b K c h : ℚ) (i a : ℕ) : ℚ :=
  if i = 0 then 0
  else if N + 1 ≤ i + a then -100000
  else
    (∑ j in Finset.range (i - 1 + a - 1), b * j * inventory_p N praw j)
      - (if a = 0 then 0 else K + c * a) - h * ((i : ℚ) - 1 + a)

/-- C8: in the inventory family, ordering `a` units from a non-overflow
state whose inventory level plus `a` reaches or exceeds the capacity
yields the infeasibility penalty reward `-100000`. -/
theorem inventory_reward_overflow_penalty (N : ℕ) (praw : ℕ → ℚ) (b K c h : ℚ)
    (i a : ℕ) (hi : i ≠ 0) (hover : N + 1 ≤ i + a) :
    inventory_reward N praw b K c h i a = -100000 := by
  unfold inventory_reward
  rw [if_neg hi, if_pos hover]

/-- C8 witness: with capacity `n_inv = 2` (levels -1, 0, 1), ordering 1
unit at level 1 overflows and is penalised. -/
theorem inventory_reward_overflow_penalty_witness :
    inventory_reward 2 (fun _ => 1) 3 1 1 1 2 1 = -100000 :=
  inventory_reward_overflow_penalty 2 (fun _ => 1) 3 1 1 1 2 1
    (by norm_num) (by norm_num)

/-- C10: in the inventory family the overflow state (level `-1`, index 0)
is absorbing under every action — it returns to itself with probability
one — and receives zero initial probability. -/
theorem inventory_overflow_absorbing (N : ℕ) (praw raw : ℕ → ℚ) (a : ℕ) :
    inventory_trans N praw a 0 0 = 1 ∧
    (∀ j, j ≠ 0 → inventory_trans N praw a 0 j = 0) ∧
    inventory_initial_distr N raw 0 = 0 := by
  refine ⟨?_, ?_, rfl⟩
  · unfold inventory_trans
    rw [if_pos (Or.inr rfl), if_pos rfl]
  · intro j hj
    unfold inventory_trans
    rw [if_pos (Or.inr rfl), if_neg hj]

/-- C10 witness: concrete instance with capacity 2 and action 1. -/
theorem inventory_overflow_absorbing_witness :
    inventory_trans 2 (fun _ => 1) 1 0 0 = 1 ∧
    inventory_trans 2 (fun _ => 1) 1 0 1 = 0 ∧
    inventory_initial_distr 2 (fun _ => 1) 0 = 0 :=
  ⟨(inventory_overflow_absorbing 2 (fun _ => 1) (fun _ => 1) 1).1,
   (inventory_overflow_absorbing 2 (fun _ => 1) (fun _ => 1) 1).2.1 1 (by norm_num),
   (inventory_overflow_absorbing 2 (fun _ => 1) (fun _ => 1) 1).2.2⟩

/-! ## Replace (machine maintenance) family -/

/-- Deterioration matrix `p_det` of the replace family (main.py lines
296-307): row `i` is a normalised vector of normal-pdf values supported
on `j ≥ i`. -/
def replace_p_det (n : ℕ) (detRaw : ℕ → ℕ → ℚ) (i j : ℕ) : ℚ :=
  if i ≤ j then rowNormalize (n - i) (detRaw i) (j - i) else 0

/-- Restoration probabilities `p_res` (main.py lines 308-317): a
normalised vector of positive uniform draws, indexed by maintenance
action `a ≥ 1`. -/
def replace_p_res (m : ℕ) (resRaw : ℕ → ℚ) (a : ℕ) : ℚ :=
  rowNormalize m resRaw (a - 1)

/-- Transition matrix of the replace family (main.py lines 321-347):
action 0 deteriorates by `p_det`; a maintenance action succeeds with
probability `p_res[a]` (restoring to a fresh machine's dynamics) and
otherwise deteriorates from the current state. -/
def replace_trans (n m : ℕ) (detRaw : ℕ → ℕ → ℚ) (resRaw : ℕ → ℚ)
    (a i j : ℕ) : ℚ :=
  if a = 0 then replace_p_det n detRaw i j
  else if j < i then replace_p_res m resRaw a * replace_p_det n detRaw 0 j
  else replace_p_res m resRaw a * replace_p_det n detRaw 0 j
    + (1 - replace_p_res m resRaw a) * replace_p_det n detRaw i j

lemma replace_p_det_row (n : ℕ) (detRaw : ℕ → ℕ → ℚ) (i : ℕ)
    (hpos : ∀ k, 0 < detRaw i k) (hi : i < n) :
    (∀ j, 0 ≤ replace_p_det n detRaw i j) ∧
    ∑ j in Finset.range n, replace_p_det n detRaw i j = 1 := by
  have hs : (∑ k in Finset.range (n - i), detRaw i k) ≠ 0 :=
    ne_of_gt (Finset.sum_pos (fun k _ => hpos k)
      (Finset.nonempty_range_iff.mpr (by omega)))
  constructor
  · intro j
    unfold replace_p_det
    split_ifs
    · exact rowNormalize_nonneg (n - i) (detRaw i) (fun k => le_of_lt (hpos k)) _
    · exact le_refl 0
  · have hfun : ∀ j ∈ Finset.range n, replace_p_det n detRaw i j
        = (if i ≤ j ∧ j < n then rowNormalize (n - i) (detRaw i) (j - i) else 0) := by
      intro j hj
      rw [Finset.mem_range] at hj
      unfold replace_p_det
      by_cases hij : i ≤ j
      · rw [if_pos hij, if_pos ⟨hij, hj⟩]
      · rw [if_neg hij, if_neg (by tauto)]
    rw [Finset.sum_congr rfl hfun, sum_range_ite_interval n i n _ (le_refl n),
      Finset.sum_Ico_eq_sum_range]
    have hstep : ∀ t ∈ Finset.range (n - i),
        rowNormalize (n - i) (detRaw i) (i + t - i)
          = rowNormalize (n - i) (detRaw i) t := by
      intro t _; congr 1; omega
    rw [Finset.sum_congr rfl hstep]
    exact rowNormalize_sum (n - i) (detRaw i) hs

lemma replace_p_res_bounds (m : ℕ) (resRaw : ℕ → ℚ) (a : ℕ)
    (hpos : ∀ k, 0 < resRaw k) (ha1 : 1 ≤ a) (ham : a ≤ m) :
    0 ≤ replace_p_res m resRaw a ∧ replace_p_res m resRaw a ≤ 1 := by
  have hsumpos : 0 < ∑ k in Finset.range m, resRaw k :=
    Finset.sum_pos (fun k _ => hpos k) (Finset.nonempty_range_iff.mpr (by omega))
  exact ⟨rowNormalize_nonneg m resRaw (fun k => le_of_lt (hpos k)) _,
    rowNormalize_le_one m resRaw (a - 1) (fun k => le_of_lt (hpos k))
      hsumpos (by omega)⟩

/-- Replace family rows are nonnegative and sum to one (positive raw
draws, action `a ≤ n_actions`, state `i < n_states`). -/
lemma replace_trans_row (n m : ℕ) (detRaw : ℕ → ℕ → ℚ) (resRaw : ℕ → ℚ)
    (a i : ℕ) (hdet : ∀ r k, 0 < detRaw r k) (hres : ∀ k, 0 < resRaw k)
    (ha : a ≤ m) (hi : i < n) :
    (∀ j, 0 ≤ replace_trans n m detRaw resRaw a i j) ∧
    ∑ j in Finset.range n, replace_trans n m detRaw resRaw a i j = 1 := by
  have hrow_i := replace_p_det_row n detRaw i (hdet i) hi
  have hrow_0 := replace_p_det_row n detRaw 0 (hdet 0) (by omega)
  by_cases ha0 : a = 0
  · subst ha0
    constructor
    · intro j
      unfold replace_trans
      rw [if_pos rfl]
      exact hrow_i.1 j
    · have hfun : ∀ j, replace_trans n m detRaw resRaw 0 i j
          = replace_p_det n detRaw i j :=
        fun j => by unfold replace_trans; rw [if_pos rfl]
      rw [Finset.sum_congr rfl fun j _ => hfun j]
      exact hrow_i.2
  · have hres_b := replace_p_res_bounds m resRaw a hres (by omega) ha
    have hfun : ∀ j, replace_trans n m detRaw resRaw a i j
        = replace_p_res m resRaw a * replace_p_det n detRaw 0 j
          + (1 - replace_p_res m resRaw a) * replace_p_det n detRaw i j := by
      intro j
      unfold replace_trans
      rw [if_neg ha0]
      by_cases hj : j < i
      · rw [if_pos hj]
        have hz : replace_p_det n detRaw i j = 0 := by
          unfold replace_p_det
          rw [if_neg (by omega)]
        rw [hz, mul_zero, add_zero]
      · rw [if_neg hj]
    constructor
    · intro j
      rw [hfun j]
      have h1 : 0 ≤ replace_p_res m resRaw a * replace_p_det n detRaw 0 j :=
        mul_nonneg hres_b.1 (hrow_0.1 j)
      have h2 : 0 ≤ (1 - replace_p_res m resRaw a) * replace_p_det n detRaw i j :=
        mul_nonneg (by linarith [hres_b.2]) (hrow_i.1 j)
      linarith
    · rw [Finset.sum_congr rfl fun j _ => hfun j, Finset.sum_add_distrib,
        ← Finset.mul_sum, ← Finset.mul_sum, hrow_0.2, hrow_i.2]
      ring

/-! ## Transmission family -/

/-- Channel transition matrix of the transmission family (main.py lines
415-420): random draws with normalised rows. -/
def channel_trans (C : ℕ) (chRaw : ℕ → ℕ → ℚ) (c c' : ℕ) : ℚ :=
  rowNormalize C (chRaw c) c'

/-- Success probabilities `p[a][c]` (main.py lines 397-406): for each
positive action, a normalised vector of normal-pdf values over channels. -/
def transmission_p (C : ℕ) (pRaw : ℕ → ℕ → ℚ) (a c : ℕ) : ℚ :=
  rowNormalize C (pRaw a) c

/-- Transition matrix of the transmission family (main.py lines 421-463):
a state is a (channel, packages-left) pair; the channel always moves by
`channel_trans`; under a positive action a package is delivered with
probability `p[a][channel]` when one is left. -/
def transmission_trans (C : ℕ) (chRaw pRaw : ℕ → ℕ → ℚ)
    (a c k c' k' : ℕ) : ℚ :=
  if a = 0 then
    (if k' = k then channel_trans C chRaw c c' else 0)
  else if k = 0 ∧ k' = k then channel_trans C chRaw c c'
  else if k' = k then
    channel_trans C chRaw c c' * (1 - transmission_p C pRaw a c)
  else if k' + 1 = k then
    channel_trans C chRaw c c' * transmission_p C pRaw a c
  else 0

/-- Transmission family rows are nonnegative and sum to one (nonnegative
channel draws with nonzero row totals, positive pdf draws, channel
`c < C`, package count `k ≤ n_package`). -/
lemma transmission_trans_row (C P : ℕ) (chRaw pRaw : ℕ → ℕ → ℚ) (a c k : ℕ)
    (hch : ∀ r j, 0 ≤ chRaw r j)
    (hchs : ∀ r, (∑ j in Finset.range C, chRaw r j) ≠ 0)
    (hp : ∀ r j, 0 < pRaw r j) (hc : c < C) (hk : k < P + 1) :
    (∀ c' k', 0 ≤ transmission_trans C chRaw pRaw a c k c' k') ∧
    ∑ c' in Finset.range C, ∑ k' in Finset.range (P + 1),
      transmission_trans C chRaw pRaw a c k c' k' = 1 := by
  have hp0 : 0 ≤ transmission_p C pRaw a c :=
    rowNormalize_nonneg C (pRaw a) (fun j => le_of_lt (hp a j)) c
  have hp1 : transmission_p C pRaw a c ≤ 1 :=
    rowNormalize_le_one C (pRaw a) c (fun j => le_of_lt (hp a j))
      (Finset.sum_pos (fun j _ => hp a j)
        (Finset.nonempty_range_iff.mpr (by omega))) hc
  constructor
  · intro c' k'
    have hch0 : 0 ≤ channel_trans C chRaw c c' :=
      rowNormalize_nonneg C (chRaw c) (hch c) c'
    unfold transmission_trans
    split_ifs <;>
      first
        | exact hch0
        | exact le_refl 0
        | exact mul_nonneg hch0 (by linarith)
        | exact mul_nonneg hch0 hp0
  · by_cases ha0 : a = 0
    · have hinner : ∀ c', ∑ k' in Finset.range (P + 1),
          transmission_trans C chRaw pRaw a c k c' k'
            = channel_trans C chRaw c c' := by
        intro c'
        have hfun : ∀ k', transmission_trans C chRaw pRaw a c k c' k'
            = (if k' = k then channel_trans C chRaw c c' else 0) := by
          intro k'; unfold transmission_trans; rw [if_pos ha0]
        rw [Finset.sum_congr rfl fun k' _ => hfun k',
          sum_range_ite_one (P + 1) k _ hk]
      rw [Finset.sum_congr rfl fun c' _ => hinner c']
      exact rowNormalize_sum C (chRaw c) (hchs c)
    · by_cases hk0 : k = 0
      · subst hk0
        have hinner : ∀ c', ∑ k' in Finset.range (P + 1),
            transmission_trans C chRaw pRaw a c 0 c' k'
              = channel_trans C chRaw c c' := by
          intro c'
          have hfun : ∀ k', transmission_trans C chRaw pRaw a c 0 c' k'
              = (if k' = 0 then channel_trans C chRaw c c' else 0) := by
            intro k'
            unfold transmission_trans
            rw [if_neg ha0]
            by_cases hk' : k' = 0
            · rw [if_pos ⟨rfl, hk'⟩, if_pos hk']
            · rw [if_neg (fun h => hk' h.2), if_neg hk', if_neg (by omega),
                if_neg hk']
          rw [Finset.sum_congr rfl fun k' _ => hfun k',
            sum_range_ite_one (P + 1) 0 _ (by omega)]
        rw [Finset.sum_congr rfl fun c' _ => hinner c']
        exact rowNormalize_sum C (chRaw c) (hchs c)
      · have hinner : ∀ c', ∑ k' in Finset.range (P + 1),
            transmission_trans C chRaw pRaw a c k c' k'
              = channel_trans C chRaw c c' := by
          intro c'
          have hfun : ∀ k', transmission_trans C chRaw pRaw a c k c' k'
              = (if k' = k then
                   channel_trans C chRaw c c' * (1 - transmission_p C pRaw a c)
                 else if k' = k - 1 then
                   channel_trans C chRaw c c' * transmission_p C pRaw a c
                 else 0) := by
            intro k'
            unfold transmission_trans
            rw [if_neg ha0, if_neg (fun h => hk0 h.1)]
            by_cases h1 : k' = k
            · rw [if_pos h1, if_pos h1]
            · rw [if_neg h1, if_neg h1]
              by_cases h2 : k' + 1 = k
              · rw [if_pos h2, if_pos (by omega)]
              · rw [if_neg h2, if_neg (by omega)]
          rw [Finset.sum_congr rfl fun k' _ => hfun k',
            sum_range_ite_two (P + 1) k (k - 1)
              (channel_trans C chRaw c c' * (1 - transmission_p C pRaw a c))
              (channel_trans C chRaw c c' * transmission_p C pRaw a c)
              hk (by omega) (by omega)]
          ring
        rw [Finset.sum_congr rfl fun c' _ => hinner c']
        exact rowNormalize_sum C (chRaw c) (hchs c)

/-- C2: for every instance family handled by `define_MDP` (random, queue,
bandit, inventory, replace, transmission) and every valid parameter tuple,
each action's transition matrix is row-stochastic: all entries are
nonnegative and every row sums to one.  The NumPy draws enter as
parameters carrying exactly the properties the library guarantees
(`rand` draws nonnegative with nonzero row totals, pdf values positive). -/
theorem define_MDP_trans_row_stochastic :
    (∀ (n : ℕ) (raw : ℕ → ℕ → ℕ → ℚ) (a i : ℕ),
      (∀ j, 0 ≤ raw a i j) → (∑ j in Finset.range n, raw a i j) ≠ 0 →
      (∀ j, 0 ≤ random_trans n raw a i j) ∧
      ∑ j in Finset.range n, random_trans n raw a i j = 1) ∧
    (∀ (n m : ℕ) (p : ℚ) (a i : ℕ), 2 ≤ n → a < m → 0 ≤ p → p ≤ 1 → i < n →
      (∀ j, 0 ≤ queue_trans n m p a i j) ∧
      ∑ j in Finset.range n, queue_trans n m p a i j = 1) ∧
    (∀ (A S : ℕ) (armRaw : ℕ → ℕ → ℕ → ℚ) (a : Fin A) (σ : Fin A → Fin S),
      (∀ k, 0 ≤ armRaw a (σ a) k) →
      (∑ k in Finset.range S, armRaw a (σ a) k) ≠ 0 →
      (∀ τ, 0 ≤ bandit_trans A S armRaw a σ τ) ∧
      ∑ τ : Fin A → Fin S, bandit_trans A S armRaw a σ τ = 1) ∧
    (∀ (N : ℕ) (praw : ℕ → ℚ) (a i : ℕ),
      (∀ j, 0 ≤ praw j) → (∑ j in Finset.range N, praw j) ≠ 0 →
      i < N + 1 → a < N →
      (∀ j, 0 ≤ inventory_trans N praw a i j) ∧
      ∑ j in Finset.range (N + 1), inventory_trans N praw a i j = 1) ∧
    (∀ (n m : ℕ) (detRaw : ℕ → ℕ → ℚ) (resRaw : ℕ → ℚ) (a i : ℕ),
      (∀ r k, 0 < detRaw r k) → (∀ k, 0 < resRaw k) → a ≤ m → i < n →
      (∀ j, 0 ≤ replace_trans n m detRaw resRaw a i j) ∧
      ∑ j in Finset.range n, replace_trans n m detRaw resRaw a i j = 1) ∧
    (∀ (C P : ℕ) (chRaw pRaw : ℕ → ℕ → ℚ) (a c k : ℕ),
      (∀ r j, 0 ≤ chRaw r j) →
      (∀ r, (∑ j in Finset.range C, chRaw r j) ≠ 0) →
      (∀ r j, 0 < pRaw r j) → c < C → k < P + 1 →
      (∀ c' k', 0 ≤ transmission_trans C chRaw pRaw a c k c' k') ∧
      ∑ c' in Finset.range C, ∑ k' in Finset.range (P + 1),
        transmission_trans C chRaw pRaw a c k c' k' = 1) :=
  ⟨random_trans_row, queue_trans_row, bandit_trans_row,
   inventory_trans_row, replace_trans_row, transmission_trans_row⟩

/-- C2 witness: the row-stochasticity statement instantiated on concrete
draws for each of the six families. -/
theorem define_MDP_trans_row_stochastic_witness :
    (∑ j in Finset.range 2, random_trans 2 (fun _ _ _ => 1) 0 0 j = 1) ∧
    (∑ j in Finset.range 3, queue_trans 3 2 (1 / 5) 1 1 j = 1) ∧
    (∑ τ : Fin 1 → Fin 2, bandit_trans 1 2 (fun _ _ _ => 1) 0 (fun _ => 0) τ = 1) ∧
    (∑ j in Finset.range 3, inventory_trans 2 (fun _ => 1) 1 1 j = 1) ∧
    (∑ j in Finset.range 2, replace_trans 2 1 (fun _ _ => 1) (fun _ => 1) 1 1 j = 1) ∧
    (∑ c' in Finset.range 1, ∑ k' in Finset.range 2,
      transmission_trans 1 (fun _ _ => 1) (fun _ _ => 1) 1 0 1 c' k' = 1) :=
  ⟨(define_MDP_trans_row_stochastic.1 2 (fun _ _ _ => 1) 0 0
      (fun _ => zero_le_one) (by norm_num [Finset.sum_range_succ])).2,
   (define_MDP_trans_row_stochastic.2.1 3 2 (1 / 5) 1 1 (by norm_num)
      (by norm_num) (by norm_num) (by norm_num) (by norm_num)).2,
   (define_MDP_trans_row_stochastic.2.2.1 1 2 (fun _ _ _ => 1) 0 (fun _ => 0)
      (fun _ => zero_le_one) (by norm_num [Finset.sum_range_succ])).2,
   (define_MDP_trans_row_stochastic.2.2.2.1 2 (fun _ => 1) 1 1
      (fun _ => zero_le_one) (by norm_num [Finset.sum_range_succ])
      (by norm_num) (by norm_num)).2,
   (define_MDP_trans_row_stochastic.2.2.2.2.1 2 1 (fun _ _ => 1) (fun _ => 1) 1 1
      (fun _ _ => one_pos) (fun _ => one_pos) (by norm_num) (by norm_num)).2,
   (define_MDP_trans_row_stochastic.2.2.2.2.2 1 1 (fun _ _ => 1) (fun _ _ => 1)
      1 0 1 (fun _ _ => zero_le_one)
      (fun _ => by norm_num [Finset.sum_range_succ])
      (fun _ _ => one_pos) (by norm_num) (by norm_num)).2⟩

/-! ## The full `define_MDP` as a function of the seeded generator -/

/-- Python's `int()` truncation on the (nonnegative) numeric parameters
read from the tuple. -/
def pyInt (q : ℚ) : ℕ := ⌊q⌋.toNat

/-- Reward matrix of the queue family (main.py lines 101-107):
`-1 * i - 60 * q[j]^3`. -/
def queue_reward (m : ℕ) (p : ℚ) (i j : ℕ) : ℚ :=
  -1 * (i : ℚ) - 60 * queue_q m p j * queue_q m p j * queue_q m p j

/-- Coordinate `b` of bandit state index `i`: the source enumerates states
as `itertools.product(range(n_states), repeat=n_arm)` (main.py line 145),
so index `i` has base-`S` digits, most significant arm first. -/
def bandit_digit (A S i b : ℕ) : ℕ := (i / S ^ (A - 1 - b)) % S

/-- Integer-indexed bandit transition matrix (main.py lines 149-168), over
the product enumeration of arm positions. -/
def bandit_trans_ix (A S : ℕ) (armRaw : ℕ → ℕ → ℕ → ℚ) (a i j : ℕ) : ℚ :=
  if ∀ b ∈ Finset.range A, b ≠ a → bandit_digit A S i b = bandit_digit A S j b
  then rowNormalize S (armRaw a (bandit_digit A S i a)) (bandit_digit A S j a)
  else 0

/-- Reward matrix of the bandit family (main.py lines 169-173):
`(10 / n_states) * state_list[i][a]`. -/
def bandit_reward (A S : ℕ) (i a : ℕ) : ℚ :=
  (10 / (S : ℚ)) * (bandit_digit A S i a : ℚ)

/-- Reward matrix of the replace family (main.py lines 348-357):
`C_rew - C_rep[j] - C_opr[i]` with `C_rew = 0.5 n`, `C_rep[j] = 0.1 n j`
and `C_opr` a sorted vector of uniform draws. -/
def replace_reward (n : ℕ) (oprRaw : ℕ → ℚ) (i j : ℕ) : ℚ :=
  (1 / 2) * (n : ℚ) - (1 / 10) * (n : ℚ) * (j : ℚ) - oprRaw i

/-- Integer-indexed transmission transition matrix: the source enumerates
states as `(channel, packages)` pairs (main.py lines 390-394), so index
`i` decodes as channel `i / (P+1)` and package count `i % (P+1)`. -/
def transmission_trans_ix (C P : ℕ) (chRaw pRaw : ℕ → ℕ → ℚ) (a i j : ℕ) : ℚ :=
  transmission_trans C chRaw pRaw a (i / (P + 1)) (i % (P + 1))
    (j / (P + 1)) (j % (P + 1))

/-- Reward matrix of the transmission family (main.py lines 464-476):
holding cost per remaining package plus, for a positive action, the
transmission cost `c_t[j-1]`. -/
def transmission_reward (P : ℕ) (ct : ℕ → ℚ) (ch : ℚ) (i j : ℕ) : ℚ :=
  if j = 0 then (i % (P + 1) : ℕ) * ch
  else (i % (P + 1) : ℕ) * ch + ct (j - 1)

/-- Instance family selected by substring matching on the instance name
in `define_MDP` (main.py lines 22, 61, 128, 194, 279, 375). -/
inductive MDPFamily where
  | random
  | queue
  | bandit
  | inventory
  | replace
  | transmission
deriving DecidableEq

/-- The elements dictionary returned by `define_MDP` (main.py lines
506-513): transition matrices, reward matrix, initial distribution and
discount factor, over dense integer indices. -/
structure MDPElements where
  nStates : ℕ
  nActions : ℕ
  trans_mat : ℕ → ℕ → ℕ → ℚ
  reward_mat : ℕ → ℕ → ℚ
  alpha : ℕ → ℚ
  gamma : ℚ

/-- Embedding of `define_MDP` (main.py lines 16-513) as a pure function
of the instance family, the parameter tuple, and the state of the global
NumPy generator.  The generator — seeded once by `np.random.seed(1)` in
`main` (line 776) — is modelled as an explicit stream `rng : ℕ → ℚ` of the
scalars it produces; every random quantity of every family is read from
the stream (scipy's pdf/pmf post-processing of drawn parameters is
deterministic and is likewise folded into the stream lookups; the exact
offsets are schematic, which is irrelevant here since only functional
dependence on the stream matters). -/
def defineMDP (fam : MDPFamily) (params : List ℚ) (rng : ℕ → ℚ) : MDPElements :=
  match fam with
  | .random =>
    let n := pyInt (params.getD 0 0)
    let m := pyInt (params.getD 1 0)
    { nStates := n, nActions := m,
      trans_mat := random_trans n (fun a i j => rng (a * n * n + i * n + j)),
      reward_mat := fun i a => rng (m * n * n + i * m + a),
      alpha := rand_initial_distr n (fun k => rng (m * n * n + n * m + k)),
      gamma := 999 / 1000 }
  | .queue =>
    let n := pyInt (params.getD 0 0)
    let m := pyInt (params.getD 1 0)
    let p := params.getD 2 0
    { nStates := n, nActions := m,
      trans_mat := queue_trans n m p,
      reward_mat := queue_reward m p,
      alpha := rand_initial_distr n rng,
      gamma := 999 / 1000 }
  | .bandit =>
    let A := pyInt (params.getD 0 0)
    let S := pyInt (params.getD 1 0)
    { nStates := S ^ A, nActions := A,
      trans_mat := bandit_trans_ix A S (fun a i j => rng (A * S + a * S * S + i * S + j)),
      reward_mat := bandit_reward A S,
      alpha := rand_initial_distr (S ^ A) (fun k => rng (A * S + A * S * S + k)),
      gamma := 999 / 1000 }
  | .inventory =>
    let N := pyInt (params.getD 0 0) + 1
    { nStates := N + 1, nActions := N,
      trans_mat := inventory_trans N (fun k => rng (5 + k)),
      reward_mat := fun i a =>
        inventory_reward N (fun k => rng (5 + k)) (rng 0) (rng 1) (rng 2) (rng 3) i a,
      alpha := inventory_initial_distr N (fun k => rng (5 + N + k)),
      gamma := 999 / 1000 }
  | .replace =>
    let n := pyInt (params.getD 0 0)
    let m := pyInt (params.getD 1 0)
    { nStates := n, nActions := m + 1,
      trans_mat := replace_trans n m (fun i k => rng (i * n + k))
        (fun k => rng (n * n + k)),
      reward_mat := replace_reward n (fun k => rng (n * n + m + k)),
      alpha := replace_initial_distr n,
      gamma := 999 / 1000 }
  | .transmission =>
    let C := pyInt (params.getD 0 0)
    let P := pyInt (params.getD 1 0)
    let A := pyInt (params.getD 2 0)
    { nStates := C * (P + 1), nActions := A + 1,
      trans_mat := transmission_trans_ix C P
        (fun c j => rng (A * C + A + 1 + c * C + j))
        (fun a j => rng (a * C + j)),
      reward_mat := transmission_reward P (fun k => rng (A * C + k)) (rng (A * C + A)),
      alpha := rand_initial_distr (C * (P + 1))
        (fun k => rng (A * C + A + 1 + C * C + k)),
      gamma := 999 / 1000 }

/-- The seed installed by `main` (main.py line 776) before any instance
is generated. -/
def np_random_seed : ℕ := 1

/-- C9: instance generation is deterministic given the RNG seed.  `main`
seeds the global NumPy generator (with `np_random_seed = 1`) before any
instance is built; the seeded generator is an explicit stream here, and
`defineMDP` is a pure function of the family, the parameters and that
stream: two calls started from equal generator states return identical
transition matrices, reward matrices and initial distributions. -/
theorem defineMDP_deterministic (fam : MDPFamily) (params : List ℚ)
    (rng₁ rng₂ : ℕ → ℚ) (h : rng₁ = rng₂) :
    (defineMDP fam params rng₁).trans_mat = (defineMDP fam params rng₂).trans_mat ∧
    (defineMDP fam params rng₁).reward_mat = (defineMDP fam params rng₂).reward_mat ∧
    (defineMDP fam params rng₁).alpha = (defineMDP fam params rng₂).alpha := by
  subst h
  exact ⟨rfl, rfl, rfl⟩

/-- C9 witness: two-run determinism at a concrete family, parameter tuple
and stream. -/
theorem defineMDP_deterministic_witness :
    (defineMDP MDPFamily.random [2, 2] (fun t => (t : ℚ))).trans_mat
      = (defineMDP MDPFamily.random [2, 2] (fun t => (t : ℚ))).trans_mat ∧
    (defineMDP MDPFamily.random [2, 2] (fun t => (t : ℚ))).reward_mat
      = (defineMDP MDPFamily.random [2, 2] (fun t => (t : ℚ))).reward_mat ∧
    (defineMDP MDPFamily.random [2, 2] (fun t => (t : ℚ))).alpha
      = (defineMDP MDPFamily.random [2, 2] (fun t => (t : ℚ))).alpha :=
  defineMDP_deterministic MDPFamily.random [2, 2]
    (fun t => (t : ℚ)) (fun t => (t : ℚ)) rfl

/-! ## Benders decomposition runs and the `decomposition_monotone` data
flow (main.py lines 551-656 and 659-771).  The class `MDP_Benders`
(module `MDP_Benders.py`) is not part of the sources; its effect on the
master model is modelled from the spec. -/

/-- MDP data handed to `MDP_Benders` by the drivers (main.py lines
613-617, 724-728, 737-741). -/
structure BendersMDP where
  nStates : ℕ
  nActions : ℕ
  trans : ℕ → ℕ → ℕ → ℚ
  reward : ℕ → ℕ → ℚ
  gamma : ℚ

/-- Modelled from the spec: the right-hand side of the Bellman cut for
`(s, a)` at the master solution `θ` — `R(s,a) + γ Σ_t P(t|s,a) θ_t`
(spec §3 "Cut", §4.2). -/
def cutRHS (M : BendersMDP) (θ : ℕ → ℚ) (s a : ℕ) : ℚ :=
  M.reward s a + M.gamma * ∑ t in Finset.range M.nStates, M.trans a s t * θ t

/-- Modelled from the spec (§4.2): the argmax action of state `s` at `θ`,
the lowest index winning ties. -/
def bestAction (M : BendersMDP) (θ : ℕ → ℚ) (s : ℕ) : ℕ :=
  (List.range M.nActions).foldl
    (fun best a => if cutRHS M θ s a > cutRHS M θ s best then a else best) 0

/-- Modelled from the spec (§4.2): the cuts emitted by one generation
pass — one per violated state, i.e. each `s` with `θ_s < best(s) - ε`. -/
def violatedCuts (M : BendersMDP) (ε : ℚ) (θ : ℕ → ℚ) : List (ℕ × ℕ) :=
  (List.range M.nStates).filterMap (fun s =>
    if θ s < cutRHS M θ s (bestAction M θ s) - ε
    then some (s, bestAction M θ s) else none)

/-- Modelled from the spec (§4.1, §4.3): the decomposition loop acting on
the master passed in by the caller — solve the master (`solve` stands for
the LP solve), append the newly violated cuts to the master's pool (cuts
are never removed; duplicates are skipped), stop when no new cut exists.
The fuel bounds the iterations by the cut-pool bound |S|·|A| of the
spec's termination argument. -/
def decompLoop (M : BendersMDP) (solve : MPModel → ℕ → ℚ) (ε : ℚ) :
    ℕ → MPModel → MPModel
  | 0, mp => mp
  | fuel + 1, mp =>
    if (violatedCuts M ε (solve mp)).filter (fun cut => cut ∉ mp.constrs) = []
    then mp
    else decompLoop M solve ε fuel
      { mp with constrs := mp.constrs
          ++ (violatedCuts M ε (solve mp)).filter (fun cut => cut ∉ mp.constrs) }

lemma decompLoop_succ (M : BendersMDP) (solve : MPModel → ℕ → ℚ) (ε : ℚ)
    (fuel : ℕ) (mp : MPModel) :
    decompLoop M solve ε (fuel + 1) mp
      = if (violatedCuts M ε (solve mp)).filter (fun cut => cut ∉ mp.constrs) = []
        then mp
        else decompLoop M solve ε fuel
          { mp with constrs := mp.constrs
              ++ (violatedCuts M ε (solve mp)).filter (fun cut => cut ∉ mp.constrs) } :=
  rfl

/-- Modelled from the spec: `MDP_Benders.MDP_decomposition` as its effect
on the master model it receives — the master's cut pool grows in place
across iterations and the master is left with all accumulated cuts. -/
def MDP_decomposition (M : BendersMDP) (solve : MPModel → ℕ → ℚ) (ε : ℚ)
    (mp : MPModel) : MPModel :=
  decompLoop M solve ε (M.nStates * M.nActions + 1) mp

/-- Data flow of one loop iteration of `decomposition_monotone` (main.py
lines 678-746): a single master `MP_model` is built by `define_MP` (line
686); the same object is handed to the `MDP_Benders` unrestricted run
(lines 724-733) and afterwards to the `MDP_Benders` monotone run (lines
737-746).  The pair returned holds the cut pool of the master at the
start of the unrestricted run and the cut pool of the master at the
start of the monotone run. -/
def decomposition_monotone_pools (M : BendersMDP) (alpha : List ℚ)
    (solve : MPModel → ℕ → ℚ) (ε : ℚ) : List (ℕ × ℕ) × List (ℕ × ℕ) :=
  ((define_MP (List.range M.nStates) alpha).constrs,
   (MDP_decomposition M solve ε (define_MP (List.range M.nStates) alpha)).constrs)

/-- One-state, one-action instance: self-loop with probability one,
reward zero, discount 1/2. -/
def oneStateMDP : BendersMDP :=
  { nStates := 1, nActions := 1, trans := fun _ _ _ => 1,
    reward := fun _ _ => 0, gamma := 1 / 2 }

/-- Exact master optimum for `oneStateMDP`: with an empty pool the single
theta sits at its Gurobi lower bound `-1e10`; once the pool holds the cut
`(0,0)` (which reads `θ₀ ≥ 0 + (1/2)·θ₀`), the minimum is at `θ₀ = 0`. -/
def solve1 : MPModel → ℕ → ℚ :=
  fun mp _ => if mp.constrs = [] then -10000000000 else 0

/-- The master after the unrestricted Benders run on `oneStateMDP`:
the initially empty pool has gained the cut `(0, 0)`. -/
def mp1 : MPModel := { define_MP [0] [1] with constrs := [(0, 0)] }

lemma bestAction_one (θ : ℕ → ℚ) : bestAction oneStateMDP θ 0 = 0 := by
  unfold bestAction
  rw [show List.range oneStateMDP.nActions = [0] from rfl]
  simp

lemma cutRHS_one (θ : ℕ → ℚ) : cutRHS oneStateMDP θ 0 0 = (1 / 2) * θ 0 := by
  simp [cutRHS, oneStateMDP, Finset.sum_range_succ]

lemma violatedCuts_one (ε : ℚ) (θ : ℕ → ℚ) :
    violatedCuts oneStateMDP ε θ
      = if θ 0 < (1 / 2) * θ 0 - ε then [(0, 0)] else [] := by
  unfold violatedCuts
  rw [show List.range oneStateMDP.nStates = [0] from rfl]
  by_cases hcond : θ 0 < (1 / 2) * θ 0 - ε
  · rw [if_pos hcond]
    simp only [List.filterMap_cons, List.filterMap_nil, bestAction_one,
      cutRHS_one, if_pos hcond]
  · rw [if_neg hcond]
    simp only [List.filterMap_cons, List.filterMap_nil, bestAction_one,
      cutRHS_one, if_neg hcond]

lemma benders_run_one :
    MDP_decomposition oneStateMDP solve1 (1 / 1000000) (define_MP [0] [1]) = mp1 := by
  show decompLoop oneStateMDP solve1 (1 / 1000000) (1 + 1) (define_MP [0] [1]) = mp1
  rw [decompLoop_succ]
  have hθ1 : solve1 (define_MP [0] [1]) = fun _ => (-10000000000 : ℚ) := rfl
  have hV1 : (violatedCuts oneStateMDP (1 / 1000000)
      (solve1 (define_MP [0] [1]))).filter
        (fun cut => cut ∉ (define_MP [0] [1]).constrs) = [(0, 0)] := by
    rw [hθ1, violatedCuts_one, if_pos (by norm_num)]
    rfl
  rw [hV1, if_neg (by simp)]
  show decompLoop oneStateMDP solve1 (1 / 1000000) (0 + 1) mp1 = mp1
  rw [decompLoop_succ]
  have hθ2 : solve1 mp1 = fun _ => (0 : ℚ) := rfl
  have hV2 : (violatedCuts oneStateMDP (1 / 1000000) (solve1 mp1)).filter
      (fun cut => cut ∉ mp1.constrs) = [] := by
    rw [hθ2, violatedCuts_one, if_neg (by norm_num)]
    rfl
  rw [hV2, if_pos rfl]

/-- C1 (claim as stated) is false: in the `decomposition_monotone` data
flow, on the concrete instance `oneStateMDP` the master handed to the
monotone run still carries the cut `(0, 0)` added by the preceding
unrestricted run — its cut pool is not empty at the start of that run. -/
theorem decomposition_monotone_cuts_leak :
    (decomposition_monotone_pools oneStateMDP [1] solve1 (1 / 1000000)).2 = [(0, 0)]
    ∧ (decomposition_monotone_pools oneStateMDP [1] solve1 (1 / 1000000)).2 ≠ [] := by
  have h2 : (decomposition_monotone_pools oneStateMDP [1] solve1 (1 / 1000000)).2
      = [(0, 0)] := by
    show (MDP_decomposition oneStateMDP solve1 (1 / 1000000)
      (define_MP [0] [1])).constrs = [(0, 0)]
    rw [benders_run_one]
    rfl
  exact ⟨h2, by rw [h2]; simp⟩

/-- C1 (amended): each driver-loop iteration builds one fresh master with
an empty cut pool, and that empty-pool master is what the unrestricted
run receives; but in `decomposition_monotone` the monotone run receives
the very same master again — holding exactly the cuts accumulated by the
preceding unrestricted run (cuts once added persist through a run), not
an empty pool. -/
theorem decomposition_monotone_pools_spec (M : BendersMDP) (alpha : List ℚ)
    (solve : MPModel → ℕ → ℚ) (ε : ℚ) :
    (decomposition_monotone_pools M alpha solve ε).1 = [] ∧
    (decomposition_monotone_pools M alpha solve ε).2
      = (MDP_decomposition M solve ε
          (define_MP (List.range M.nStates) alpha)).constrs ∧
    (∀ (fuel : ℕ) (mp : MPModel) (cut : ℕ × ℕ), cut ∈ mp.constrs →
      cut ∈ (decompLoop M solve ε fuel mp).constrs) := by
  refine ⟨rfl, rfl, ?_⟩
  intro fuel
  induction fuel with
  | zero => intro mp cut h; exact h
  | succ n ih =>
    intro mp cut h
    rw [decompLoop_succ]
    split_ifs
    · exact h
    · exact ih _ cut (List.mem_append_left _ h)

/-- C1 amended-claim witness: a cut sitting in a master's pool persists
through a (zero-iteration) run, on the concrete one-state instance. -/
theorem decomposition_monotone_pools_spec_witness :
    ((0, 0) : ℕ × ℕ) ∈ mp1.constrs ∧
    ((0, 0) : ℕ × ℕ) ∈ (decompLoop oneStateMDP solve1 (1 / 1000000) 0 mp1).constrs :=
  ⟨by decide,
   (decomposition_monotone_pools_spec oneStateMDP [1] solve1
     (1 / 1000000)).2.2 0 mp1 (0, 0) (by decide)⟩
